import Mathlib

/-!
# Verification of the flash-card core against its specification

This file gives a shallow embedding, in Lean 4, of the core algorithms of the
medical-terms flash-card application:

* the answer matcher of `screens/quiz.py` (`QuizCardApp._submit_answer`),
* the deck composer of `utils.py` (`spread_shuffle_with_replacement`,
  `spread_shuffle`) together with the filtering step of
  `controller.py` (`App._prepare_mode_cards`),
* the markdown table parser of `utils.py` (`parse_markdown_tables`),
* the history store of `history.py` (`save_quiz_result`, `load_quiz_history`).

Python strings are modelled as `List Char`; Python `list`s as Lean lists.
Randomness (the global `random` module) is modelled by explicitly passed
shuffle functions constrained to be permutations, and by an explicit stream
of sampling indices.  File contents are modelled at the record level.
-/

/-! ## Definitions: shallow embedding of the source code -/

/-- Characters of a string literal, used to write concrete inputs. -/
def chars (s : String) : List Char := s.data


/-- The whitespace test used by Python `str.strip()` (ASCII subset:
space, tab, newline, carriage return, vertical tab, form feed). -/
def pyIsSpace (c : Char) : Bool :=
  c.toNat = 32 || c.toNat = 9 || c.toNat = 10 || c.toNat = 13 ||
    c.toNat = 11 || c.toNat = 12


/-- Python `str.strip()`: drop whitespace from both ends. -/
def pyStrip (l : List Char) : List Char :=
  ((l.dropWhile pyIsSpace).reverse.dropWhile pyIsSpace).reverse


/-- Python `str.lower()` on a single character (ASCII letters). -/
def pyLowerChar (c : Char) : Char :=
  if 65 ≤ c.toNat ∧ c.toNat ≤ 90 then Char.ofNat (c.toNat + 32) else c


/-- Python `str.lower()` (ASCII model). -/
def pyLower (l : List Char) : List Char := l.map pyLowerChar


/-- Python `str.replace("-", "")`: remove every hyphen. -/
def removeHyphens (l : List Char) : List Char := l.filter fun c => c != '-'


/-- The `normalize` helper of `QuizCardApp._submit_answer`:
`s.strip().lower().replace("-", "")`. -/
def pyNorm (l : List Char) : List Char := removeHyphens (pyLower (pyStrip l))


/-- Python `str.split(sep)` for a one-character separator. -/
def splitOnChar (sep : Char) : List Char → List (List Char)
  | [] => [[]]
  | c :: rest =>
    if c = sep then [] :: splitOnChar sep rest
    else
      match splitOnChar sep rest with
      | [] => [[c]]
      | s :: ss => (c :: s) :: ss


/-- The three-way outcome of answer matching.  `subsetAnswer` is the
"Correct! Full answer: ..." outcome (called *Partial* in the specification);
`incorrect` is "Incorrect. Answer: ...". -/
inductive Verdict where
  | correct
  | subsetAnswer
  | incorrect
deriving DecidableEq


/-- The comma-separated term set built by `_submit_answer`:
`{normalize(t) for t in s.split(",") if normalize(t)}`. -/
def termFinset (s : List Char) : Finset (List Char) :=
  (((splitOnChar ',' s).map pyNorm).filter fun t => t != []).toFinset


/-- `QuizCardApp._submit_answer`'s matching logic.  The user's entry text is
first normalized as a whole (`self.entry.get().strip().lower().replace("-", "")`,
line 133); the correct term is used raw.  Both are then split on commas and
each segment normalized again, empty segments discarded, and the two sets
compared (lines 143-151). -/
def matchAnswer (userText correctTerm : List Char) : Verdict :=
  let userAnswer := pyNorm userText
  let userTerms := termFinset userAnswer
  let correctTerms := termFinset correctTerm
  if userTerms = correctTerms then Verdict.correct
  else if userTerms ≠ ∅ ∧ userTerms ⊆ correctTerms then Verdict.subsetAnswer
  else Verdict.incorrect


/-- The claim's term-set semantics: the whole string is normalized (trim,
lowercase, hyphen removal), then split on commas into the set of normalized
non-empty sub-terms.  This is the set the code actually uses for the *user*
side; the code uses `termFinset` directly (no whole-string pre-normalization)
for the *correct* side. -/
def specTermSet (s : List Char) : Finset (List Char) := termFinset (pyNorm s)

example : matchAnswer (chars "a") (chars "a,b") = Verdict.subsetAnswer := by decide
example : matchAnswer (chars "a,c") (chars "a,b") = Verdict.incorrect := by decide
example : matchAnswer (chars "CPR") (chars "cpr") = Verdict.correct := by decide
example : matchAnswer (chars "brady-cardia") (chars "bradycardia") = Verdict.correct := by decide
example : matchAnswer (chars "a") (chars "- a") = Verdict.incorrect := by decide
example : specTermSet (chars "a") = specTermSet (chars "- a") := by decide
example : matchAnswer (chars "-") (chars ",") = Verdict.correct := by decide
example : matchAnswer (chars "  ") (chars "-,-") = Verdict.correct := by decide


/-- A flash card: the dictionary `{"term", "interpretation", "extra", "section"}`
built by `parse_markdown_tables`.  The `section` key is called `sectionName`
here because `section` is a Lean keyword. -/
structure Card where
  term : List Char
  interpretation : List Char
  extra : List Char
  sectionName : List Char
deriving DecidableEq

instance : Inhabited Card := ⟨⟨[], [], [], []⟩⟩


/-- One step of `defaultdict(list)` grouping: append `c` to the group keyed by
its section, creating the group at the end on first sight of the key. -/
def insertCard (gs : List (List Char × List Card)) (c : Card) :
    List (List Char × List Card) :=
  match gs with
  | [] => [(c.sectionName, [c])]
  | (k, g) :: rest =>
    if k = c.sectionName then (k, g ++ [c]) :: rest
    else (k, g) :: insertCard rest c


/-- The `by_section` grouping of `spread_shuffle` (utils.py lines 51-53):
group values in first-seen key order, each group in arrival order. -/
def groupBySection (cards : List Card) : List (List Card) :=
  (cards.foldl insertCard []).map Prod.snd


/-- Total number of cards across the section sublists. -/
def totalLen (gs : List (List Card)) : Nat := (gs.map List.length).sum


/-- Fuelled version of the round-robin merge loop of `spread_shuffle`
(utils.py lines 64-67): in each round, visit the sublists in the fixed list
order, popping the tail of every non-empty sublist. -/
def mergeGo : Nat → List (List Card) → List Card
  | 0, _ => []
  | fuel + 1, gs =>
    if gs.all List.isEmpty then []
    else (gs.filterMap List.getLast?) ++ mergeGo fuel (gs.map List.dropLast)


/-- The `while any(sections): for section_cards in sections: ...pop()` merge of
`spread_shuffle`.  `totalLen gs` rounds always suffice. -/
def roundRobinMerge (gs : List (List Card)) : List Card :=
  mergeGo (totalLen gs) gs


/-- The random shuffles consumed by `spread_shuffle`: `random.shuffle` applied
to each per-section sublist and to the list of sublists. -/
structure RandSrc where
  shuffleGroup : List Card → List Card
  shuffleSections : List (List Card) → List (List Card)


/-- The shuffles really are shuffles: each application permutes its input.
This is the semantics of Python's `random.shuffle`. -/
def IsFairRand (r : RandSrc) : Prop :=
  (∀ l, List.Perm (r.shuffleGroup l) l) ∧ (∀ gs, List.Perm (r.shuffleSections gs) gs)


/-- A degenerate but legitimate random source: every shuffle is the identity
permutation. -/
def idRand : RandSrc := ⟨fun l => l, fun gs => gs⟩

theorem idRand_fair : IsFairRand idRand :=
  ⟨fun _ => List.Perm.refl _, fun _ => List.Perm.refl _⟩


/-- `spread_shuffle` (utils.py lines 35-69): group by section, shuffle within
each group, shuffle the list of groups once, then round-robin merge popping
from each tail. -/
def spread_shuffle (r : RandSrc) (cards : List Card) : List Card :=
  if cards.isEmpty then []
  else roundRobinMerge (r.shuffleSections ((groupBySection cards).map r.shuffleGroup))


/-- `random.choices(cards, k=k)`: `k` independent draws with replacement,
the `i`-th draw picking the index `picks i % cards.length`.  Quantifying over
`picks` covers every possible outcome of the random sampling. -/
def sampleChoices (picks : Nat → Nat) (cards : List Card) (k : Nat) : List Card :=
  (List.range k).map fun i => cards.getD (picks i % cards.length) default


/-- `spread_shuffle_with_replacement` (utils.py lines 11-32). -/
def spread_shuffle_with_replacement (r : RandSrc) (picks : Nat → Nat)
    (cards : List Card) (k : Nat) : List Card :=
  if cards.isEmpty then []
  else spread_shuffle r (sampleChoices picks cards k)


/-- `App._prepare_mode_cards` (controller.py lines 38-45): filter the pool by
the selected sections, fall back to the whole pool when the filter is empty,
then sample-and-spread.  This is the deck composer `compose` of the
specification. -/
def prepare_mode_cards (r : RandSrc) (picks : Nat → Nat) (pool : List Card)
    (selected : List (List Char)) (count : Nat) : List Card :=
  let filtered := pool.filter fun c => selected.contains c.sectionName
  let filtered2 := if filtered.isEmpty then pool else filtered
  spread_shuffle_with_replacement r picks filtered2 count

def cardA : Card := ⟨chars "a1", chars "ia", [], chars "A"⟩
def cardA2 : Card := ⟨chars "a2", chars "ia", [], chars "A"⟩
def cardB : Card := ⟨chars "b1", chars "ib", [], chars "B"⟩
def cardB2 : Card := ⟨chars "b2", chars "ib", [], chars "B"⟩

example : spread_shuffle idRand [cardA, cardB, cardA2] = [cardA2, cardB, cardA] := by decide
example : prepare_mode_cards idRand (fun _ => 0) [cardA] [] 0 = [] := by decide
example : (prepare_mode_cards idRand (fun _ => 0) [cardA, cardB] [chars "A"] 3).length = 3 := by
  decide


/-- `pat` is a leading segment of `l` (Python `str.startswith`). -/
def startsWith : List Char → List Char → Bool
  | [], _ => true
  | _ :: _, [] => false
  | p :: ps, c :: cs => p == c && startsWith ps cs


/-- Python's substring test `pat in l`. -/
def containsSeq (pat : List Char) : List Char → Bool
  | [] => pat == []
  | c :: rest => startsWith pat (c :: rest) || containsSeq pat rest


/-- `line.startswith("|") and "|" in line[1:]` (utils.py line 118). -/
def isTableLine (line : List Char) : Bool :=
  match line with
  | '|' :: rest => rest.contains '|'
  | _ => false


/-- The cell list of one table row (utils.py lines 130-133):
split on `|`, strip each cell, then the two clean-up comprehensions
`[c for c in cells if c or cells.index(c) not in [0, len(cells) - 1]]`
(note: `cells.index` is *value*-based) and `[c for c in cells if c]`. -/
def rowCells (row : List Char) : List (List Char) :=
  let cs := (splitOnChar '|' row).map pyStrip
  let cs2 := cs.filter fun c =>
    c != [] || !((cs.indexOf c == 0) || (cs.indexOf c == cs.length - 1))
  cs2.filter fun c => c != []


/-- Build the card dictionary of utils.py lines 136-141 from a cell list with
at least two cells. -/
def cardOfCells (cur : List Char) (cells : List (List Char)) : Card :=
  ⟨cells.getD 0 [], cells.getD 1 [],
    if 2 < cells.length then cells.getD 2 [] else [], cur⟩


/-- The inner row loop of `parse_markdown_tables` (utils.py lines 125-143):
consume lines while the stripped line starts with `|`, producing a card for
every row with at least two cells; return the cards and the unconsumed
remainder of the document. -/
def consumeRows (cur : List Char) : List (List Char) → List Card × List (List Char)
  | [] => ([], [])
  | l :: rest =>
    if startsWith [ '|' ] (pyStrip l) then
      let next := consumeRows cur rest
      let cells := rowCells (pyStrip l)
      if 2 ≤ cells.length then (cardOfCells cur cells :: next.1, next.2)
      else next
    else ([], l :: rest)


/-- The default section name (utils.py line 101). -/
def generalSection : List Char := chars "General"


/-- The separator `"===="` looked for under a heading line (utils.py line 110). -/
def eqMarks : List Char := chars "===="


/-- The separator `"----"` looked for under a table header (utils.py line 122). -/
def dashMarks : List Char := chars "----"


/-- Register a section name in the catalog if it is not there yet
(`if current_section not in sections: sections.append(current_section)`). -/
def addSection (sections : List (List Char)) (name : List Char) : List (List Char) :=
  if sections.contains name then sections else sections ++ [name]


/-- Fuelled version of the outer `while i < len(lines)` scanning loop of
`parse_markdown_tables` (utils.py lines 106-145).  Every iteration advances
past at least one line, so fuel equal to the number of lines suffices. -/
def parseGo : Nat → List (List Char) → List Char → List (List Char) →
    List Card × List (List Char)
  | 0, sections, _, _ => ([], sections)
  | _ + 1, sections, _, [] => ([], sections)
  | fuel + 1, sections, cur, l0 :: rest =>
    let line := pyStrip l0
    let headingNext :=
      match rest with
      | l1 :: _ => startsWith eqMarks (pyStrip l1)
      | [] => false
    if headingNext then
      parseGo fuel (addSection sections line) line (rest.drop 1)
    else if isTableLine line then
      let sections2 := addSection sections cur
      match rest with
      | l1 :: rest2 =>
        if containsSeq dashMarks l1 then
          let consumed := consumeRows cur rest2
          let further := parseGo fuel sections2 cur consumed.2
          (consumed.1 ++ further.1, further.2)
        else parseGo fuel sections2 cur rest
      | [] => ([], sections2)
    else parseGo fuel sections cur rest


/-- `parse_markdown_tables` on the list of lines of the document
(the source first does `content.split("\n")`; the file read itself is
elided).  Returns the cards and the section catalog. -/
def parse_markdown_tables (lines : List (List Char)) :
    List Card × List (List Char) :=
  parseGo lines.length [] generalSection lines


/-- `parse_markdown_tables` on raw document text. -/
def parseDocument (content : List Char) : List Card × List (List Char) :=
  parse_markdown_tables (splitOnChar '\n' content)

/-- The heading-shaped line pairs of a document: the trimmed text of every
line whose immediate successor strips to a line starting with `====` — the
exact test `parse_markdown_tables` applies when it treats a line as a
setext-style heading (utils.py line 110).  Used to state which document
lines can ever become a card's section name. -/
def headingPairs : List (List Char) → List (List Char)
  | l0 :: l1 :: rest =>
    if startsWith eqMarks (pyStrip l1) then
      pyStrip l0 :: headingPairs (l1 :: rest)
    else headingPairs (l1 :: rest)
  | _ => []

example :
    parse_markdown_tables
      [chars "| Term | Interpretation |", chars "| ---- | ---- |",
        chars "| IV | fluid |", chars "| PO | mouth |"] =
    ([⟨chars "IV", chars "fluid", [], generalSection⟩,
      ⟨chars "PO", chars "mouth", [], generalSection⟩], [generalSection]) := by decide

example :
    parse_markdown_tables [chars "Orphan", chars "===="] =
      ([], [chars "Orphan"]) := by decide

example :
    (parse_markdown_tables
      [chars "| h | h |", chars "| ---- |", chars "|term||extra|"]).1 =
    [⟨chars "term", chars "extra", [], generalSection⟩] := by decide

example :
    (parse_markdown_tables
      [chars "", chars "====", chars "| h | h |", chars "| ---- |",
        chars "| a | b |"]).1 = [⟨chars "a", chars "b", [], []⟩] := by decide


/-- Decimal digit character of `d`. -/
def digitChar (d : Nat) : Char := Char.ofNat (48 + d)


/-- Little-endian decimal digit characters of `n`, with enough fuel. -/
def natDigitsGo : Nat → Nat → List Char
  | 0, _ => []
  | fuel + 1, n => if n = 0 then [] else digitChar (n % 10) :: natDigitsGo fuel (n / 10)


/-- Python `str(n)` for a natural number. -/
def natToStr (n : Nat) : List Char :=
  if n = 0 then [ '0' ] else (natDigitsGo n n).reverse


/-- Is `c` a decimal digit? -/
def isDigitChar (c : Char) : Bool := 48 ≤ c.toNat && c.toNat ≤ 57


/-- Numeric value of a big-endian digit string. -/
def digitsVal (ds : List Char) : Nat :=
  ds.foldl (fun a c => 10 * a + (c.toNat - 48)) 0


/-- Parse a non-empty all-digit string. -/
def parseDigits (ds : List Char) : Option Nat :=
  if ds ≠ [] ∧ ds.all isDigitChar then some (digitsVal ds) else none


/-- Python `int(s)` (sign and surrounding whitespace allowed). -/
def parsePyInt (s : List Char) : Option Int :=
  match pyStrip s with
  | [] => none
  | c :: ds =>
    if c = '+' then (parseDigits ds).map Int.ofNat
    else if c = '-' then (parseDigits ds).map fun n => -(n : Int)
    else (parseDigits (c :: ds)).map Int.ofNat


/-- The header row written on first use (history.py line 30). -/
def historyHeader : List (List Char) :=
  [chars "time", chars "number_of_questions", chars "number_of_correct_answers"]


/-- One deserialized history record (`{"time", "total", "correct"}`,
history.py lines 49-53). -/
structure HistoryEntry where
  time : List Char
  total : Int
  correct : Int
deriving DecidableEq


/-- `save_quiz_result` (history.py lines 13-31): append one record, writing
the header first when the file does not exist yet.  `now` stands for
`datetime.now().isoformat()`; the result is the new file contents. -/
def save_quiz_result (now : List Char) (total correct : Nat)
    (file : Option (List (List (List Char)))) : List (List (List Char)) :=
  (match file with
   | none => [historyHeader]
   | some rows => rows) ++ [[now, natToStr total, natToStr correct]]


/-- `row[name]` of a `csv.DictReader` row: the field at the position of
`name` in the header, if any. -/
def lookupField (hdr row : List (List Char)) (name : List Char) :
    Option (List Char) :=
  match hdr.indexOf? name with
  | none => none
  | some i => row.get? i


/-- Deserialize one data row (history.py lines 49-53); `none` models the
exception Python raises on a malformed row. -/
def parseHistoryRow (hdr row : List (List Char)) : Option HistoryEntry := do
  let t ← lookupField hdr row (chars "time")
  let q ← lookupField hdr row (chars "number_of_questions")
  let c ← lookupField hdr row (chars "number_of_correct_answers")
  let qn ← parsePyInt q
  let cn ← parsePyInt c
  pure ⟨t, qn, cn⟩


/-- Deserialize the data rows in order, failing (like the Python loop, which
raises) as soon as one row is malformed. -/
def parseRows (hdr : List (List Char)) :
    List (List (List Char)) → Option (List HistoryEntry)
  | [] => some []
  | row :: rest =>
    match parseHistoryRow hdr row, parseRows hdr rest with
    | some e, some es => some (e :: es)
    | _, _ => none


/-- `load_quiz_history` (history.py lines 34-54): a missing file reads as the
empty history; otherwise the first row is the `csv.DictReader` header and
every following row is deserialized.  `none` models a raised exception. -/
def load_quiz_history (file : Option (List (List (List Char)))) :
    Option (List HistoryEntry) :=
  match file with
  | none => some []
  | some [] => some []
  | some (hdr :: body) => parseRows hdr body

example :
    load_quiz_history (some (save_quiz_result (chars "2024-01-15T10:30:00") 20 15 none)) =
      some [⟨chars "2024-01-15T10:30:00", 20, 15⟩] := by decide


/-- The claim's merge semantics: a *fresh* visiting order is chosen at every
full round; `reorder t` is the order used in round `t`. -/
def mergeRoundsVaried : Nat → (Nat → List (List Card) → List (List Card)) →
    Nat → List (List Card) → List Card
  | 0, _, _, _ => []
  | fuel + 1, reorder, t, gs =>
    if gs.all List.isEmpty then []
    else
      let gs2 := reorder t gs
      (gs2.filterMap List.getLast?) ++
        mergeRoundsVaried fuel reorder (t + 1) (gs2.map List.dropLast)


/-- A round-dependent visiting order: the identity in even rounds, the
reversal (a permutation) in odd rounds. -/
def roundSwap : Nat → List (List Card) → List (List Card) :=
  fun t gs => if t % 2 = 1 then gs.reverse else gs

theorem merge_fixed_visit_order_counterexample :
    mergeRoundsVaried 4 roundSwap 0 [[cardA, cardA2], [cardB, cardB2]] =
      [cardA2, cardB2, cardB, cardA] ∧
    roundRobinMerge [[cardA, cardA2], [cardB, cardB2]] ≠
      [cardA2, cardB2, cardB, cardA] ∧
    roundRobinMerge [[cardB, cardB2], [cardA, cardA2]] ≠
      [cardA2, cardB2, cardB, cardA] ∧
    List.Perm (([[cardA, cardA2], [cardB, cardB2]] : List (List Card)).reverse)
      [[cardA, cardA2], [cardB, cardB2]] :=
  ⟨by decide, by decide, by decide, by decide⟩


/-- A small well-formed document used to instantiate parser theorems. -/
def demoTable : List (List Char) :=
  [chars "| Term | Interpretation |", chars "| ---- | ---- |",
    chars "| IV | fluid |", chars "| PO | mouth |"]


/-! ## Concrete evaluations, helper lemmas and claim theorems -/

theorem toNat_charOfNat {n : Nat} (h : n < 55296) : (Char.ofNat n).toNat = n := by
  have hv : n.isValidChar := Or.inl h
  rw [Char.ofNat, dif_pos hv]
  rfl


theorem charEq_iff_toNat {a b : Char} : a = b ↔ a.toNat = b.toNat := by
  constructor
  · intro h; rw [h]
  · intro h
    have := congrArg Char.ofNat h
    rwa [Char.ofNat_toNat, Char.ofNat_toNat] at this


theorem pyLowerChar_of_upper {c : Char} (h1 : 65 ≤ c.toNat) (h2 : c.toNat ≤ 90) :
    (pyLowerChar c).toNat = c.toNat + 32 := by
  rw [pyLowerChar, if_pos ⟨h1, h2⟩]
  exact toNat_charOfNat (by omega)


theorem pyLowerChar_of_not_upper {c : Char} (h : ¬(65 ≤ c.toNat ∧ c.toNat ≤ 90)) :
    pyLowerChar c = c := by
  rw [pyLowerChar, if_neg h]


theorem pyLowerChar_eq_hyphen {c : Char} (h : pyLowerChar c = '-') : c = '-' := by
  by_cases hc : 65 ≤ c.toNat ∧ c.toNat ≤ 90
  · have h1 := pyLowerChar_of_upper hc.1 hc.2
    rw [h] at h1
    have h2 : ('-').toNat = 45 := by decide
    omega
  · rwa [pyLowerChar_of_not_upper hc] at h


theorem pyLowerChar_eq_comma {c : Char} (h : pyLowerChar c = ',') : c = ',' := by
  by_cases hc : 65 ≤ c.toNat ∧ c.toNat ≤ 90
  · have h1 := pyLowerChar_of_upper hc.1 hc.2
    rw [h] at h1
    have h2 : (',').toNat = 44 := by decide
    omega
  · rwa [pyLowerChar_of_not_upper hc] at h


theorem pyLowerChar_of_space {c : Char} (h : pyIsSpace c = true) :
    pyLowerChar c = c := by
  apply pyLowerChar_of_not_upper
  simp only [pyIsSpace, Bool.or_eq_true, decide_eq_true_eq] at h
  omega


theorem totalLen_dropLast_le (gs : List (List Card)) :
    totalLen (gs.map List.dropLast) ≤ totalLen gs := by
  induction gs with
  | nil => simp [totalLen]
  | cons g rest ih =>
    simp only [totalLen, List.map_cons, List.sum_cons] at ih ⊢
    have : (List.dropLast g).length ≤ g.length := by
      rw [List.length_dropLast]; omega
    omega


theorem totalLen_dropLast_lt {gs : List (List Card)}
    (h : gs.all List.isEmpty = false) :
    totalLen (gs.map List.dropLast) < totalLen gs := by
  induction gs with
  | nil => simp at h
  | cons g rest ih =>
    simp only [List.all_cons, Bool.and_eq_false_iff] at h
    simp only [totalLen, List.map_cons, List.sum_cons]
    rcases h with h | h
    · have hg : g ≠ [] := by
        intro he; rw [he] at h; simp at h
      have : (List.dropLast g).length < g.length := by
        rw [List.length_dropLast]
        have := List.length_pos.mpr hg
        omega
      have := totalLen_dropLast_le rest
      simp only [totalLen] at this
      omega
    · have := ih h
      simp only [totalLen] at this
      have : (List.dropLast g).length ≤ g.length := by
        rw [List.length_dropLast]; omega
      omega


theorem totalLen_eq_zero_of_all_empty {gs : List (List Card)}
    (h : gs.all List.isEmpty = true) : totalLen gs = 0 := by
  induction gs with
  | nil => rfl
  | cons g rest ih =>
    simp only [List.all_cons, Bool.and_eq_true, List.isEmpty_iff] at h
    simp only [totalLen, List.map_cons, List.sum_cons, h.1, List.length_nil]
    simpa [totalLen] using ih h.2


theorem all_empty_of_totalLen_eq_zero {gs : List (List Card)}
    (h : totalLen gs = 0) : gs.all List.isEmpty = true := by
  induction gs with
  | nil => rfl
  | cons g rest ih =>
    simp only [totalLen, List.map_cons, List.sum_cons] at h
    have hg : g.length = 0 := by omega
    have hr : totalLen rest = 0 := by simp [totalLen]; omega
    simp [List.all_cons, List.isEmpty_iff, List.length_eq_zero.mp hg, ih hr]


theorem mergeGo_fuel_congr : ∀ f g : Nat, ∀ gs : List (List Card),
    totalLen gs ≤ f → totalLen gs ≤ g → mergeGo f gs = mergeGo g gs := by
  intro f
  induction f with
  | zero =>
    intro g gs hf _
    have hempty := all_empty_of_totalLen_eq_zero (Nat.le_zero.mp hf)
    cases g with
    | zero => rfl
    | succ g => simp [mergeGo, hempty]
  | succ f ih =>
    intro g gs hf hg
    cases g with
    | zero =>
      have hempty := all_empty_of_totalLen_eq_zero (Nat.le_zero.mp hg)
      simp [mergeGo, hempty]
    | succ g =>
      by_cases hempty : gs.all List.isEmpty = true
      · simp [mergeGo, hempty]
      · have hfalse : gs.all List.isEmpty = false := by
          simpa using hempty
        have hlt := totalLen_dropLast_lt hfalse
        simp only [mergeGo, hfalse, Bool.false_eq_true, if_false]
        rw [ih g (gs.map List.dropLast) (by omega) (by omega)]


theorem roundRobinMerge_round (gs : List (List Card)) :
    roundRobinMerge gs =
      if gs.all List.isEmpty then []
      else (gs.filterMap List.getLast?) ++ roundRobinMerge (gs.map List.dropLast) := by
  by_cases hempty : gs.all List.isEmpty = true
  · have h0 := totalLen_eq_zero_of_all_empty hempty
    simp [roundRobinMerge, h0, mergeGo, hempty]
  · have hfalse : gs.all List.isEmpty = false := by simpa using hempty
    have hlt := totalLen_dropLast_lt hfalse
    have h1 : 1 ≤ totalLen gs := by omega
    obtain ⟨m, hm⟩ : ∃ m, totalLen gs = m + 1 := ⟨totalLen gs - 1, by omega⟩
    simp only [roundRobinMerge, hfalse, Bool.false_eq_true, if_false, hm, mergeGo]
    rw [mergeGo_fuel_congr m (totalLen (gs.map List.dropLast)) (gs.map List.dropLast)
      (by omega) (by omega)]


theorem join_perm_pop (gs : List (List Card)) :
    List.Perm gs.flatten
      ((gs.filterMap List.getLast?) ++ (gs.map List.dropLast).flatten) := by
  induction gs with
  | nil => simp
  | cons g rest ih =>
    by_cases hg : g = []
    · subst hg
      simpa using ih
    · have hlast : g.getLast? = some (g.getLast hg) :=
        List.getLast?_eq_getLast_of_ne_nil hg
      simp only [List.flatten_cons, List.filterMap_cons, hlast, List.map_cons]
      have h1 : List.Perm (g ++ rest.flatten)
          (g.getLast hg :: (g.dropLast ++ rest.flatten)) := by
        conv_lhs => rw [← List.dropLast_append_getLast hg]
        have hcomm : List.Perm (g.dropLast ++ [g.getLast hg])
            ([g.getLast hg] ++ g.dropLast) := List.perm_append_comm
        have := hcomm.append_right rest.flatten
        simp only [List.append_assoc, List.singleton_append, List.cons_append] at this ⊢
        exact this
      have h2 : List.Perm (g.dropLast ++ rest.flatten)
          (g.dropLast ++ ((rest.filterMap List.getLast?) ++
            (rest.map List.dropLast).flatten)) := ih.append_left _
      have h3 : List.Perm
          (g.dropLast ++ ((rest.filterMap List.getLast?) ++
            (rest.map List.dropLast).flatten))
          ((rest.filterMap List.getLast?) ++
            (g.dropLast ++ (rest.map List.dropLast).flatten)) := by
        rw [← List.append_assoc, ← List.append_assoc]
        exact (List.perm_append_comm).append_right _
      exact h1.trans ((h2.trans h3).cons _)


theorem mergeGo_perm_join : ∀ f : Nat, ∀ gs : List (List Card),
    totalLen gs ≤ f → List.Perm (mergeGo f gs) gs.flatten := by
  intro f
  induction f with
  | zero =>
    intro gs hf
    have hempty := all_empty_of_totalLen_eq_zero (Nat.le_zero.mp hf)
    have : gs.flatten = [] := by
      rw [List.flatten_eq_nil_iff]
      intro l hl
      have := List.all_eq_true.mp hempty l hl
      exact List.isEmpty_iff.mp this
    rw [this]
    exact List.Perm.refl _
  | succ f ih =>
    intro gs hf
    by_cases hempty : gs.all List.isEmpty = true
    · have : gs.flatten = [] := by
        rw [List.flatten_eq_nil_iff]
        intro l hl
        exact List.isEmpty_iff.mp (List.all_eq_true.mp hempty l hl)
      simp [mergeGo, hempty, this]
    · have hfalse : gs.all List.isEmpty = false := by simpa using hempty
      have hlt := totalLen_dropLast_lt hfalse
      simp only [mergeGo, hfalse, Bool.false_eq_true, if_false]
      have hrec := ih (gs.map List.dropLast) (by omega)
      exact ((hrec.append_left _).trans (join_perm_pop gs).symm)


theorem roundRobinMerge_perm_join (gs : List (List Card)) :
    List.Perm (roundRobinMerge gs) gs.flatten :=
  mergeGo_perm_join (totalLen gs) gs (Nat.le_refl _)


theorem insertCard_flatten_perm (c : Card) :
    ∀ gs : List (List Char × List Card),
      List.Perm ((insertCard gs c).map Prod.snd).flatten
        (((gs.map Prod.snd).flatten) ++ [c]) := by
  intro gs
  induction gs with
  | nil => simp [insertCard]
  | cons kg rest ih =>
    obtain ⟨k, g⟩ := kg
    by_cases hk : k = c.sectionName
    · simp only [insertCard, if_pos hk, List.map_cons, List.flatten_cons]
      have hshift : List.Perm ([c] ++ (rest.map Prod.snd).flatten)
          ((rest.map Prod.snd).flatten ++ [c]) := List.perm_append_comm
      have := hshift.append_left g
      simpa [List.append_assoc] using this
    · simp only [insertCard, if_neg hk, List.map_cons, List.flatten_cons]
      have := ih.append_left g
      simpa [List.append_assoc] using this


theorem groupBySection_foldl_perm :
    ∀ (cards : List Card) (acc : List (List Char × List Card)),
      List.Perm ((cards.foldl insertCard acc).map Prod.snd).flatten
        (((acc.map Prod.snd).flatten) ++ cards) := by
  intro cards
  induction cards with
  | nil => simp
  | cons c rest ih =>
    intro acc
    have h1 := ih (insertCard acc c)
    have h2 := insertCard_flatten_perm c acc
    have h3 := h2.append_right rest
    simp only [List.foldl_cons]
    refine h1.trans ?_
    simpa [List.append_assoc] using h3


theorem groupBySection_flatten_perm (cards : List Card) :
    List.Perm (groupBySection cards).flatten cards := by
  have := groupBySection_foldl_perm cards []
  simpa [groupBySection] using this


theorem map_shuffle_flatten_perm {f : List Card → List Card}
    (hf : ∀ l, List.Perm (f l) l) (gs : List (List Card)) :
    List.Perm (gs.map f).flatten gs.flatten := by
  induction gs with
  | nil => simp
  | cons g rest ih =>
    simp only [List.map_cons, List.flatten_cons]
    exact (hf g).append ih


theorem perm_flatten_of_perm {gs hs : List (List Card)}
    (h : List.Perm gs hs) : List.Perm gs.flatten hs.flatten :=
  h.flatten


/-- The multiset guarantee of `spread_shuffle`: for every random outcome the
output is a permutation of the input list. -/
theorem spread_shuffle_perm {r : RandSrc} (hr : IsFairRand r) (cards : List Card) :
    List.Perm (spread_shuffle r cards) cards := by
  by_cases hc : cards.isEmpty
  · simp only [spread_shuffle, hc, if_true]
    have : cards = [] := List.isEmpty_iff.mp hc
    rw [this]
  · simp only [spread_shuffle, hc, Bool.false_eq_true, if_false]
    have h1 := roundRobinMerge_perm_join
      (r.shuffleSections ((groupBySection cards).map r.shuffleGroup))
    have h2 := perm_flatten_of_perm
      (hr.2 ((groupBySection cards).map r.shuffleGroup))
    have h3 := map_shuffle_flatten_perm hr.1 (groupBySection cards)
    have h4 := groupBySection_flatten_perm cards
    exact ((h1.trans h2).trans h3).trans h4

theorem spread_shuffle_length {r : RandSrc} (hr : IsFairRand r) (cards : List Card) :
    (spread_shuffle r cards).length = cards.length :=
  (spread_shuffle_perm hr cards).length_eq

theorem sampleChoices_length (picks : Nat → Nat) (cards : List Card) (k : Nat) :
    (sampleChoices picks cards k).length = k := by
  simp [sampleChoices]

theorem sampleChoices_mem {picks : Nat → Nat} {cards : List Card} {k : Nat}
    (hc : cards ≠ []) {c : Card} (h : c ∈ sampleChoices picks cards k) :
    c ∈ cards := by
  simp only [sampleChoices, List.mem_map, List.mem_range] at h
  obtain ⟨i, _, hi⟩ := h
  have hlen : 0 < cards.length := List.length_pos.mpr hc
  have hidx : picks i % cards.length < cards.length := Nat.mod_lt _ hlen
  rw [List.getD_eq_getElem cards default hidx] at hi
  rw [← hi]
  exact List.getElem_mem hidx

theorem spread_shuffle_with_replacement_length {r : RandSrc} (hr : IsFairRand r)
    (picks : Nat → Nat) (cards : List Card) (k : Nat) (hc : cards ≠ []) :
    (spread_shuffle_with_replacement r picks cards k).length = k := by
  have hne : cards.isEmpty = false := by
    simpa [List.isEmpty_iff] using hc
  simp only [spread_shuffle_with_replacement, hne, Bool.false_eq_true, if_false]
  rw [spread_shuffle_length hr, sampleChoices_length]


/-- C3: for every list of sampled cards and every outcome of the random
shuffles, the section-spread reordering (`spread_shuffle`) returns a list
whose multiset of cards equals the multiset of its input: no card is added,
duplicated or dropped, i.e. the output is a permutation-with-repetition of
the input. -/
theorem spread_shuffle_is_permutation :
    ∀ r : RandSrc, IsFairRand r →
      ∀ cards : List Card, List.Perm (spread_shuffle r cards) cards :=
  fun _ hr cards => spread_shuffle_perm hr cards

theorem spread_shuffle_is_permutation_witness :
    List.Perm (spread_shuffle idRand [cardA, cardB, cardA2]) [cardA, cardB, cardA2] :=
  spread_shuffle_is_permutation idRand idRand_fair [cardA, cardB, cardA2]


/-- C2: for every pool, selected-section set and count `k` (a natural number,
hence non-negative), and every outcome of the randomness, the composed deck
has length exactly `k` when the pool is non-empty (including `k = 0`), and
length `0` when the pool is empty, regardless of `k`. -/
theorem compose_length_exact :
    ∀ r : RandSrc, IsFairRand r →
      ∀ (picks : Nat → Nat) (pool : List Card) (selected : List (List Char)) (k : Nat),
        (pool ≠ [] → (prepare_mode_cards r picks pool selected k).length = k) ∧
        (pool = [] → (prepare_mode_cards r picks pool selected k).length = 0) := by
  intro r hr picks pool selected k
  constructor
  · intro hpool
    unfold prepare_mode_cards
    cases hf : (pool.filter fun c => selected.contains c.sectionName).isEmpty with
    | true =>
      simp only [hf, if_true]
      exact spread_shuffle_with_replacement_length hr picks pool k hpool
    | false =>
      simp only [hf, Bool.false_eq_true, if_false]
      apply spread_shuffle_with_replacement_length hr
      intro hnil
      rw [hnil] at hf
      simp at hf
  · intro hpool
    subst hpool
    simp [prepare_mode_cards, spread_shuffle_with_replacement]

theorem compose_length_exact_witness :
    (prepare_mode_cards idRand (fun _ => 0) [cardA, cardB] [chars "A"] 3).length = 3 :=
  (compose_length_exact idRand idRand_fair (fun _ => 0) [cardA, cardB]
    [chars "A"] 3).1 (List.cons_ne_nil _ _)


/-- C9 (amended): the merge phase of the spread shuffle pops from the tail of
each sublist, visiting the sublists in an order fixed once for the whole merge
(the list order produced by the single `random.shuffle(sections)` call executed
before the loop), skipping exhausted sublists, until all are empty.  Each round
emits the last element of every non-empty sublist in that fixed order and
recurses on the popped sublists. -/
theorem merge_round_structure :
    ∀ gs : List (List Card),
      roundRobinMerge gs =
        if gs.all List.isEmpty then []
        else (gs.filterMap List.getLast?) ++ roundRobinMerge (gs.map List.dropLast) :=
  roundRobinMerge_round


/-- C6 counterexample: with a selection matching no pool card and a requested
count of `0`, the deck is empty although the pool is not. -/
theorem fallback_zero_count_counterexample :
    prepare_mode_cards idRand (fun _ => 0) [cardA] [] 0 = [] ∧
    ([cardA] : List Card) ≠ [] ∧
    ([cardA].filter fun c => ([] : List (List Char)).contains c.sectionName) = [] :=
  ⟨by decide, by decide, by decide⟩


/-- C6 (amended): when at least one pool card's section is selected, every
card of the composed deck has its section in the selected set; when no pool
card's section is selected (including an empty selection), the deck is drawn
from the entire unfiltered pool, and it is empty only if the pool is empty or
the requested count is zero. -/
theorem compose_filtering_amended :
    ∀ r : RandSrc, IsFairRand r →
      ∀ (picks : Nat → Nat) (pool : List Card) (selected : List (List Char)) (k : Nat),
        ((∃ c ∈ pool, selected.contains c.sectionName = true) →
          ∀ c ∈ prepare_mode_cards r picks pool selected k,
            selected.contains c.sectionName = true) ∧
        ((∀ c ∈ pool, selected.contains c.sectionName = false) →
          prepare_mode_cards r picks pool selected k =
            spread_shuffle_with_replacement r picks pool k ∧
          (pool ≠ [] → k ≠ 0 →
            prepare_mode_cards r picks pool selected k ≠ [])) := by
  intro r hr picks pool selected k
  constructor
  · rintro ⟨c0, hc0, hc0sel⟩ c hc
    have hmem : c0 ∈ pool.filter fun c => selected.contains c.sectionName :=
      List.mem_filter.mpr ⟨hc0, hc0sel⟩
    have hne : (pool.filter fun c => selected.contains c.sectionName) ≠ [] := by
      intro h
      rw [h] at hmem
      exact absurd hmem (List.not_mem_nil _)
    have hflag : (pool.filter fun c => selected.contains c.sectionName).isEmpty = false := by
      cases hcase : (pool.filter fun c => selected.contains c.sectionName).isEmpty with
      | true => exact absurd (List.isEmpty_iff.mp hcase) hne
      | false => rfl
    rw [prepare_mode_cards] at hc
    simp only [hflag, Bool.false_eq_true, if_false] at hc
    rw [spread_shuffle_with_replacement] at hc
    simp only [hflag, Bool.false_eq_true, if_false] at hc
    have hc2 : c ∈ sampleChoices picks
        (pool.filter fun c => selected.contains c.sectionName) k :=
      ((spread_shuffle_perm hr _).mem_iff).mp hc
    have hc3 := sampleChoices_mem hne hc2
    exact (List.mem_filter.mp hc3).2
  · intro hnone
    have hfil : (pool.filter fun c => selected.contains c.sectionName) = [] := by
      apply List.filter_eq_nil_iff.mpr
      intro c hc
      simp only [hnone c hc]
      exact Bool.false_ne_true
    have heq : prepare_mode_cards r picks pool selected k =
        spread_shuffle_with_replacement r picks pool k := by
      rw [prepare_mode_cards, hfil]
      rfl
    refine ⟨heq, fun hpool hk => ?_⟩
    rw [heq]
    intro hcontra
    have := spread_shuffle_with_replacement_length hr picks pool k hpool
    rw [hcontra] at this
    exact hk this.symm

theorem compose_filtering_amended_witness :
    ((prepare_mode_cards idRand (fun _ => 0) [cardA, cardB] [chars "A"] 3).all
      fun c => [chars "A"].contains c.sectionName) = true := by
  have h := (compose_filtering_amended idRand idRand_fair (fun _ => 0)
      [cardA, cardB] [chars "A"] 3).1 ⟨cardA, by decide, by decide⟩
  exact List.all_eq_true.mpr fun c hc => h c hc


/-- C4 (amended): the cell clean-up of `parse_markdown_tables` keeps exactly
the non-empty stripped cells: leading, trailing *and interior* empty cells
are all dropped.  The value-based interior-preserving comprehension on line
132 is made inoperative by the final `[c for c in cells if c]` on line 133. -/
theorem row_cells_drop_all_empty :
    ∀ row : List Char,
      rowCells row =
        ((splitOnChar '|' row).map pyStrip).filter fun c => c != [] := by
  intro row
  simp only [rowCells]
  rw [List.filter_filter]
  apply List.filter_congr
  intro c _
  rcases eq_or_ne c [] with hc | hc
  · simp [hc]
  · simp [hc]


/-- C4 counterexample: the data row `|term||extra|` yields a card whose
`interpretation` is the *following* cell `extra` (and whose `extra` field is
empty), not the empty interior cell, because interior empty cells are
dropped. -/
theorem row_interior_empty_cell_counterexample :
    (parse_markdown_tables
      [chars "| h | h |", chars "| ---- |", chars "|term||extra|"]).1 =
      [⟨chars "term", chars "extra", [], generalSection⟩] ∧
    chars "extra" ≠ [] ∧
    rowCells (chars "|term||extra|") = [chars "term", chars "extra"] :=
  ⟨by decide, by decide, by decide⟩


/-- C5 counterexample: a heading with no subsequent table (an orphan heading)
*does* appear in the returned section catalog — it is registered at
heading-detection time (utils.py lines 110-113), not lazily at the first
table. -/
theorem orphan_heading_registered_counterexample :
    (parse_markdown_tables [chars "Orphan", chars "===="]).2 = [chars "Orphan"] ∧
    (parse_markdown_tables [chars "Orphan", chars "===="]).1 = [] :=
  ⟨by decide, by decide⟩


theorem mem_addSection_self (sections : List (List Char)) (x : List Char) :
    x ∈ addSection sections x := by
  rw [addSection]
  by_cases h : sections.contains x = true
  · rw [if_pos h]
    simpa using h
  · rw [if_neg h]
    simp

theorem mem_addSection_of_mem {sections : List (List Char)} {s : List Char}
    (x : List Char) (h : s ∈ sections) : s ∈ addSection sections x := by
  rw [addSection]
  by_cases hc : sections.contains x = true
  · rw [if_pos hc]
    exact h
  · rw [if_neg hc]
    exact List.mem_append_left _ h

theorem mem_addSection_elim {sections : List (List Char)} {s x : List Char}
    (h : s ∈ addSection sections x) : s ∈ sections ∨ s = x := by
  rw [addSection] at h
  by_cases hc : sections.contains x = true
  · rw [if_pos hc] at h
    exact Or.inl h
  · rw [if_neg hc] at h
    rcases List.mem_append.mp h with h2 | h2
    · exact Or.inl h2
    · simp only [List.mem_singleton] at h2
      exact Or.inr h2

/-- The section catalog only grows: a name registered at any point of the
scan is still present in the final catalog. -/
theorem parseGo_sections_mono :
    ∀ (fuel : Nat) (sections : List (List Char)) (cur : List Char)
      (lines : List (List Char)) (s : List Char),
      s ∈ sections → s ∈ (parseGo fuel sections cur lines).2 := by
  intro fuel
  induction fuel with
  | zero =>
    intro sections cur lines s hs
    simpa [parseGo] using hs
  | succ fuel ih =>
    intro sections cur lines s hs
    match lines with
    | [] => simpa [parseGo] using hs
    | l0 :: rest =>
      simp only [parseGo]
      cases rest with
      | nil =>
        simp only
        by_cases ht : isTableLine (pyStrip l0) = true
        · simp only [ht, if_true, Bool.false_eq_true, if_false]
          exact mem_addSection_of_mem cur hs
        · rw [Bool.not_eq_true] at ht
          simp only [ht, Bool.false_eq_true, if_false]
          exact ih sections cur [] s hs
      | cons l1 rest2 =>
        simp only
        by_cases hH : startsWith eqMarks (pyStrip l1) = true
        · simp only [hH, if_true]
          exact ih _ _ _ s (mem_addSection_of_mem _ hs)
        · rw [Bool.not_eq_true] at hH
          simp only [hH, Bool.false_eq_true, if_false]
          by_cases ht : isTableLine (pyStrip l0) = true
          · simp only [ht, if_true]
            by_cases hd : containsSeq dashMarks l1 = true
            · simp only [hd, if_true]
              exact ih _ _ _ s (mem_addSection_of_mem _ hs)
            · rw [Bool.not_eq_true] at hd
              simp only [hd, Bool.false_eq_true, if_false]
              exact ih _ _ _ s (mem_addSection_of_mem _ hs)
          · rw [Bool.not_eq_true] at ht
            simp only [ht, Bool.false_eq_true, if_false]
            exact ih sections cur (l1 :: rest2) s hs

/-- In a document whose lines never pass the table-start test, every catalog
entry was either registered before or is the trimmed text of a document line
(registered by the heading branch): the default is never added. -/
theorem parseGo_sections_no_table :
    ∀ (fuel : Nat) (sections : List (List Char)) (cur : List Char)
      (lines : List (List Char)),
      (∀ l ∈ lines, isTableLine (pyStrip l) = false) →
      ∀ s ∈ (parseGo fuel sections cur lines).2,
        s ∈ sections ∨ s ∈ lines.map pyStrip := by
  intro fuel
  induction fuel with
  | zero =>
    intro sections cur lines _ s hs
    simp only [parseGo] at hs
    exact Or.inl hs
  | succ fuel ih =>
    intro sections cur lines hnt s hs
    match lines with
    | [] =>
      simp only [parseGo] at hs
      exact Or.inl hs
    | l0 :: rest =>
      simp only [parseGo] at hs
      have hl0 : isTableLine (pyStrip l0) = false :=
        hnt l0 (List.mem_cons_self _ _)
      cases rest with
      | nil =>
        simp only [hl0, Bool.false_eq_true, if_false] at hs
        rcases ih sections cur [] (by simp) s hs with h | h
        · exact Or.inl h
        · simp at h
      | cons l1 rest2 =>
        simp only at hs
        by_cases hH : startsWith eqMarks (pyStrip l1) = true
        · simp only [hH, if_true] at hs
          have hrest : ∀ l ∈ rest2, isTableLine (pyStrip l) = false :=
            fun l hl => hnt l (List.mem_cons_of_mem _ (List.mem_cons_of_mem _ hl))
          rcases ih _ _ _ hrest s hs with h | h
          · rcases mem_addSection_elim h with h2 | h2
            · exact Or.inl h2
            · exact Or.inr (by simp [h2])
          · refine Or.inr ?_
            simp only [List.mem_map] at h ⊢
            obtain ⟨l, hl, hls⟩ := h
            exact ⟨l, List.mem_cons_of_mem _ (List.mem_cons_of_mem _ hl), hls⟩
        · rw [Bool.not_eq_true] at hH
          simp only [hH, Bool.false_eq_true, if_false, hl0] at hs
          have hrest : ∀ l ∈ l1 :: rest2, isTableLine (pyStrip l) = false :=
            fun l hl => hnt l (List.mem_cons_of_mem _ hl)
          rcases ih sections cur (l1 :: rest2) hrest s hs with h | h
          · exact Or.inl h
          · refine Or.inr ?_
            simp only [List.mem_map] at h ⊢
            obtain ⟨l, hl, hls⟩ := h
            exact ⟨l, List.mem_cons_of_mem _ hl, hls⟩

/-- C5 (amended): a section name entered via a setext-style heading is
registered in the section catalog eagerly, at heading-detection time, for
*every* document: whatever the scanner state (`sections` and `cur` capture
any already-processed document prefix) and whatever lines follow (`rest` —
in particular lines containing no table at all), the moment the scanner
reaches a heading its trimmed text enters the catalog, and the catalog only
ever grows, so an orphan heading always appears in the returned catalog
(shown exactly for the orphan-only document in the third part).  The default
section, by contrast, is registered lazily, at a table: a document none of
whose lines passes the table-start test (and none of whose trimmed lines
spells the default name) has no default entry in its catalog. -/
theorem orphan_heading_eager_registration :
    ∀ (fuel : Nat) (sections : List (List Char)) (cur name underline : List Char)
      (rest lines : List (List Char)) (s : List Char),
      (s ∈ sections → s ∈ (parseGo fuel sections cur lines).2) ∧
      (1 ≤ fuel → startsWith eqMarks (pyStrip underline) = true →
        pyStrip name ∈ (parseGo fuel sections cur (name :: underline :: rest)).2) ∧
      parse_markdown_tables [name, chars "===="] = ([], [pyStrip name]) ∧
      ((∀ l ∈ lines, isTableLine (pyStrip l) = false) →
        generalSection ∉ lines.map pyStrip →
        generalSection ∉ (parse_markdown_tables lines).2) := by
  intro fuel sections cur name underline rest lines s
  refine ⟨fun hs => parseGo_sections_mono fuel sections cur lines s hs, ?_, rfl, ?_⟩
  · intro hfuel hH
    obtain ⟨f, rfl⟩ : ∃ f, fuel = f + 1 := ⟨fuel - 1, by omega⟩
    simp only [parseGo, hH, if_true]
    exact parseGo_sections_mono f _ _ _ _ (mem_addSection_self sections (pyStrip name))
  · intro hnt hng hmem
    rcases parseGo_sections_no_table lines.length [] generalSection lines hnt
        generalSection hmem with h | h
    · simp at h
    · exact hng h

theorem orphan_heading_eager_registration_witness :
    chars "Prev" ∈ (parseGo 2 [chars "Prev"] generalSection [chars "text"]).2 ∧
    pyStrip (chars "Orphan") ∈
      (parseGo 2 [chars "Prev"] generalSection
        (chars "Orphan" :: chars "====" :: [])).2 ∧
    parse_markdown_tables [chars "Orphan", chars "===="] =
      ([], [pyStrip (chars "Orphan")]) ∧
    generalSection ∉ (parse_markdown_tables [chars "text"]).2 := by
  have h := orphan_heading_eager_registration 2 [chars "Prev"] generalSection
    (chars "Orphan") (chars "====") [] [chars "text"] (chars "Prev")
  exact ⟨h.1 (by decide), h.2.1 (by decide) (by decide), h.2.2.1,
    h.2.2.2 (by decide) (by decide)⟩


theorem mem_rowCells_ne_nil {row x : List Char} (h : x ∈ rowCells row) :
    x ≠ [] := by
  simp only [rowCells] at h
  have h2 := (List.mem_filter.mp h).2
  simpa using h2


theorem getD_mem_of_lt {l : List (List Char)} {i : Nat} (h : i < l.length) :
    l.getD i [] ∈ l := by
  rw [List.getD_eq_getElem l [] h]
  exact List.getElem_mem h


theorem cardOfCells_fields {cur : List Char} {cells : List (List Char)}
    (h : 2 ≤ cells.length) (hne : ∀ x ∈ cells, x ≠ []) :
    (cardOfCells cur cells).term ≠ [] ∧
    (cardOfCells cur cells).interpretation ≠ [] ∧
    (cardOfCells cur cells).sectionName = cur := by
  refine ⟨hne _ (getD_mem_of_lt (by omega)), hne _ (getD_mem_of_lt (by omega)), rfl⟩


theorem consumeRows_cards (cur : List Char) :
    ∀ ls : List (List Char), ∀ c ∈ (consumeRows cur ls).1,
      c.term ≠ [] ∧ c.interpretation ≠ [] ∧ c.sectionName = cur := by
  intro ls
  induction ls with
  | nil => intro c hc; simp [consumeRows] at hc
  | cons x rest ih =>
    intro c hc
    simp only [consumeRows] at hc
    by_cases hx : startsWith [ '|' ] (pyStrip x) = true
    · simp only [hx, if_true] at hc
      by_cases hlen : 2 ≤ (rowCells (pyStrip x)).length
      · rw [if_pos hlen] at hc
        rcases List.mem_cons.mp hc with hc | hc
        · subst hc
          exact cardOfCells_fields hlen fun x hx2 => mem_rowCells_ne_nil hx2
        · exact ih c hc
      · rw [if_neg hlen] at hc
        exact ih c hc
    · rw [Bool.not_eq_true] at hx
      simp only [hx, Bool.false_eq_true, if_false] at hc
      simp at hc


theorem consumeRows_rest_subset (cur : List Char) :
    ∀ ls : List (List Char), ∀ l ∈ (consumeRows cur ls).2, l ∈ ls := by
  intro ls
  induction ls with
  | nil => intro l hl; simp [consumeRows] at hl
  | cons x rest ih =>
    intro l hl
    simp only [consumeRows] at hl
    by_cases hx : startsWith [ '|' ] (pyStrip x) = true
    · simp only [hx, if_true] at hl
      by_cases hlen : 2 ≤ (rowCells (pyStrip x)).length
      · rw [if_pos hlen] at hl
        exact List.mem_cons_of_mem _ (ih l hl)
      · rw [if_neg hlen] at hl
        exact List.mem_cons_of_mem _ (ih l hl)
    · rw [Bool.not_eq_true] at hx
      simp only [hx, Bool.false_eq_true, if_false] at hl
      exact hl

theorem consumeRows_rest_suffix (cur : List Char) :
    ∀ ls : List (List Char), ∃ pre, ls = pre ++ (consumeRows cur ls).2 := by
  intro ls
  induction ls with
  | nil => exact ⟨[], rfl⟩
  | cons x rest ih =>
    simp only [consumeRows]
    by_cases hx : startsWith [ '|' ] (pyStrip x) = true
    · simp only [hx, if_true]
      obtain ⟨pre, hpre⟩ := ih
      by_cases hlen : 2 ≤ (rowCells (pyStrip x)).length
      · rw [if_pos hlen]
        exact ⟨x :: pre, by rw [List.cons_append, ← hpre]⟩
      · rw [if_neg hlen]
        exact ⟨x :: pre, by rw [List.cons_append, ← hpre]⟩
    · rw [Bool.not_eq_true] at hx
      simp only [hx, Bool.false_eq_true, if_false]
      exact ⟨[], rfl⟩

theorem headingPairs_cons_subset (x : List Char) :
    ∀ (ys : List (List Char)) (s : List Char),
      s ∈ headingPairs ys → s ∈ headingPairs (x :: ys) := by
  intro ys s hs
  cases ys with
  | nil => simp [headingPairs] at hs
  | cons y ys2 =>
    simp only [headingPairs]
    by_cases h : startsWith eqMarks (pyStrip y) = true
    · rw [if_pos h]
      exact List.mem_cons_of_mem _ hs
    · rw [if_neg h]
      exact hs

theorem headingPairs_append_subset :
    ∀ (pre ys : List (List Char)) (s : List Char),
      s ∈ headingPairs ys → s ∈ headingPairs (pre ++ ys) := by
  intro pre
  induction pre with
  | nil => intro ys s hs; exact hs
  | cons x pre2 ih =>
    intro ys s hs
    rw [List.cons_append]
    exact headingPairs_cons_subset x (pre2 ++ ys) s (ih ys s hs)


theorem parseGo_cards_sound :
    ∀ (fuel : Nat) (sections : List (List Char)) (cur : List Char)
      (lines : List (List Char)),
      ∀ c ∈ (parseGo fuel sections cur lines).1,
        c.term ≠ [] ∧ c.interpretation ≠ [] ∧
          (c.sectionName = cur ∨ c.sectionName ∈ headingPairs lines) := by
  intro fuel
  induction fuel with
  | zero =>
    intro sections cur lines c hc
    simp [parseGo] at hc
  | succ fuel ih =>
    intro sections cur lines c hc
    match lines with
    | [] => simp [parseGo] at hc
    | l0 :: rest =>
      simp only [parseGo] at hc
      cases rest with
      | nil =>
        simp only at hc
        by_cases ht : isTableLine (pyStrip l0) = true
        · simp only [ht, if_true, Bool.false_eq_true, if_false] at hc
          simp at hc
        · rw [Bool.not_eq_true] at ht
          simp only [ht, Bool.false_eq_true, if_false] at hc
          have := ih sections cur [] c hc
          refine ⟨this.1, this.2.1, ?_⟩
          rcases this.2.2 with h | h
          · exact Or.inl h
          · simp [headingPairs] at h
      | cons l1 rest2 =>
        simp only at hc
        by_cases hH : startsWith eqMarks (pyStrip l1) = true
        · simp only [hH, if_true] at hc
          have := ih (addSection sections (pyStrip l0)) (pyStrip l0)
            ((l1 :: rest2).drop 1) c hc
          refine ⟨this.1, this.2.1, ?_⟩
          have hhead : pyStrip l0 ∈ headingPairs (l0 :: l1 :: rest2) := by
            simp only [headingPairs, hH, if_true]
            exact List.mem_cons_self _ _
          rcases this.2.2 with h | h
          · rw [h]
            exact Or.inr hhead
          · refine Or.inr ?_
            simp only [List.drop_one, List.tail_cons] at h
            exact headingPairs_cons_subset l0 (l1 :: rest2) _
              (headingPairs_cons_subset l1 rest2 _ h)
        · rw [Bool.not_eq_true] at hH
          simp only [hH, Bool.false_eq_true, if_false] at hc
          by_cases ht : isTableLine (pyStrip l0) = true
          · simp only [ht, if_true] at hc
            by_cases hd : containsSeq dashMarks l1 = true
            · simp only [hd, if_true] at hc
              rcases List.mem_append.mp hc with hc | hc
              · have := consumeRows_cards cur rest2 c hc
                exact ⟨this.1, this.2.1, Or.inl this.2.2⟩
              · have := ih (addSection sections cur) cur
                  (consumeRows cur rest2).2 c hc
                refine ⟨this.1, this.2.1, ?_⟩
                rcases this.2.2 with h | h
                · exact Or.inl h
                · refine Or.inr ?_
                  obtain ⟨pre, hpre⟩ := consumeRows_rest_suffix cur rest2
                  have h2 : c.sectionName ∈ headingPairs rest2 := by
                    rw [hpre]
                    exact headingPairs_append_subset pre _ _ h
                  exact headingPairs_cons_subset l0 (l1 :: rest2) _
                    (headingPairs_cons_subset l1 rest2 _ h2)
            · rw [Bool.not_eq_true] at hd
              simp only [hd, Bool.false_eq_true, if_false] at hc
              have := ih (addSection sections cur) cur (l1 :: rest2) c hc
              refine ⟨this.1, this.2.1, ?_⟩
              rcases this.2.2 with h | h
              · exact Or.inl h
              · exact Or.inr (headingPairs_cons_subset l0 (l1 :: rest2) _ h)
          · rw [Bool.not_eq_true] at ht
            simp only [ht, Bool.false_eq_true, if_false] at hc
            have := ih sections cur (l1 :: rest2) c hc
            refine ⟨this.1, this.2.1, ?_⟩
            rcases this.2.2 with h | h
            · exact Or.inl h
            · exact Or.inr (headingPairs_cons_subset l0 (l1 :: rest2) _ h)


/-- C8 counterexample: a whitespace-only line followed by a `====` line is
accepted as a heading with empty text, so the cards of the table below it
carry the *empty* section name — not every parsed card has a non-empty
section. -/
theorem card_empty_section_counterexample :
    ((parse_markdown_tables
      [chars "", chars "====", chars "| h | h |", chars "| ---- |",
        chars "| a | b |"]).1.map Card.sectionName) = [[]] ∧
    generalSection ≠ [] :=
  ⟨by decide, by decide⟩


/-- C8 (amended): every card produced by the parser has a non-empty term and
a non-empty interpretation.  Every card's section is either the non-empty
default section name or the trimmed text of a line used as a heading — a
line whose immediate successor strips to a `====`-prefixed line
(`headingPairs`).  Consequently a card's section can be empty only when the
document contains a whitespace-only line used as such a heading, and in a
document with no heading-shaped line every card receives the non-empty
default name. -/
theorem parsed_cards_fields_amended :
    ∀ (lines : List (List Char)) (c : Card), c ∈ (parse_markdown_tables lines).1 →
      c.term ≠ [] ∧ c.interpretation ≠ [] ∧
      (c.sectionName = generalSection ∨ c.sectionName ∈ headingPairs lines) ∧
      (c.sectionName = [] → [] ∈ headingPairs lines) ∧
      (headingPairs lines = [] → c.sectionName = generalSection) := by
  intro lines c hc
  have h := parseGo_cards_sound lines.length [] generalSection lines c hc
  refine ⟨h.1, h.2.1, h.2.2, ?_, ?_⟩
  · intro hemp
    rcases h.2.2 with h2 | h2
    · rw [h2] at hemp
      exact absurd hemp (by decide)
    · rw [hemp] at h2
      exact h2
  · intro hnone
    rcases h.2.2 with h2 | h2
    · exact h2
    · rw [hnone] at h2
      exact absurd h2 (List.not_mem_nil _)

theorem parsed_cards_fields_amended_witness :
    (⟨chars "IV", chars "fluid", [], generalSection⟩ : Card).term ≠ [] ∧
    (⟨chars "IV", chars "fluid", [], generalSection⟩ : Card).interpretation ≠ [] ∧
    ((⟨chars "IV", chars "fluid", [], generalSection⟩ : Card).sectionName =
        generalSection ∨
      (⟨chars "IV", chars "fluid", [], generalSection⟩ : Card).sectionName ∈
        headingPairs demoTable) ∧
    ((⟨chars "IV", chars "fluid", [], generalSection⟩ : Card).sectionName = [] →
      [] ∈ headingPairs demoTable) ∧
    (headingPairs demoTable = [] →
      (⟨chars "IV", chars "fluid", [], generalSection⟩ : Card).sectionName =
        generalSection) :=
  parsed_cards_fields_amended demoTable ⟨chars "IV", chars "fluid", [], generalSection⟩
    (by decide)


theorem dropWhile_eq_self_of_none {p : Char → Bool} {l : List Char}
    (h : ∀ c ∈ l, p c = false) : l.dropWhile p = l := by
  cases l with
  | nil => rfl
  | cons x xs =>
    rw [List.dropWhile_cons, h x (List.mem_cons_self x xs)]
    simp


theorem pyStrip_eq_self_of_no_space {l : List Char}
    (h : ∀ c ∈ l, pyIsSpace c = false) : pyStrip l = l := by
  rw [pyStrip, dropWhile_eq_self_of_none h,
    dropWhile_eq_self_of_none (fun c hc => h c (List.mem_reverse.mp hc)),
    List.reverse_reverse]


theorem toNat_digitChar {d : Nat} (h : d < 10) : (digitChar d).toNat = 48 + d :=
  toNat_charOfNat (by omega)


theorem isDigitChar_digitChar {d : Nat} (h : d < 10) :
    isDigitChar (digitChar d) = true := by
  simp only [isDigitChar, toNat_digitChar h, Bool.and_eq_true, decide_eq_true_eq]
  omega


theorem natDigitsGo_eq_digits : ∀ fuel n : Nat, n ≤ fuel →
    natDigitsGo fuel n = (Nat.digits 10 n).map digitChar := by
  intro fuel
  induction fuel with
  | zero =>
    intro n hn
    have : n = 0 := Nat.le_zero.mp hn
    subst this
    simp [natDigitsGo]
  | succ fuel ih =>
    intro n hn
    by_cases h0 : n = 0
    · subst h0
      simp [natDigitsGo]
    · have hpos : 0 < n := Nat.pos_of_ne_zero h0
      rw [natDigitsGo, if_neg h0, Nat.digits_def' (by norm_num : 1 < 10) hpos]
      have hdiv : n / 10 ≤ fuel := by
        have := Nat.div_lt_self hpos (by norm_num : 1 < 10)
        omega
      rw [ih (n / 10) hdiv]
      simp


theorem foldl_digits_val : ∀ (ds : List Nat) (a : Nat), (∀ d ∈ ds, d < 10) →
    (((ds.map digitChar).reverse).foldl (fun acc c => 10 * acc + (c.toNat - 48)) a)
      = a * 10 ^ ds.length + Nat.ofDigits 10 ds := by
  intro ds
  induction ds with
  | nil => intro a _; simp [Nat.ofDigits]
  | cons d tl ih =>
    intro a hlt
    rw [List.map_cons, List.reverse_cons, List.foldl_append]
    rw [ih a fun e he => hlt e (List.mem_cons_of_mem _ he)]
    simp only [List.foldl_cons, List.foldl_nil]
    rw [toNat_digitChar (hlt d (List.mem_cons_self d tl))]
    rw [Nat.ofDigits_cons]
    have : 48 + d - 48 = d := by omega
    rw [this]
    simp only [List.length_cons, pow_succ]
    ring


theorem parseDigits_natToStr (n : Nat) : parseDigits (natToStr n) = some n := by
  by_cases h0 : n = 0
  · subst h0; decide
  · have hne : Nat.digits 10 n ≠ [] := Nat.digits_ne_nil_iff_ne_zero.mpr h0
    have hform : natToStr n = ((Nat.digits 10 n).map digitChar).reverse := by
      rw [natToStr, if_neg h0, natDigitsGo_eq_digits n n (Nat.le_refl n)]
    have hlt : ∀ d ∈ Nat.digits 10 n, d < 10 :=
      fun d hd => Nat.digits_lt_base (by norm_num) hd
    have hnonempty : natToStr n ≠ [] := by
      rw [hform]
      simp only [ne_eq, List.reverse_eq_nil_iff, List.map_eq_nil_iff]
      exact hne
    have halldig : (natToStr n).all isDigitChar = true := by
      rw [hform, List.all_eq_true]
      intro x hx
      rw [List.mem_reverse, List.mem_map] at hx
      obtain ⟨d, hd, hdx⟩ := hx
      rw [← hdx]
      exact isDigitChar_digitChar (hlt d hd)
    rw [parseDigits, if_pos ⟨hnonempty, halldig⟩]
    rw [hform, digitsVal, foldl_digits_val (Nat.digits 10 n) 0 hlt]
    simp [Nat.ofDigits_digits]


theorem natToStr_no_space (n : Nat) : ∀ c ∈ natToStr n, pyIsSpace c = false := by
  intro c hc
  have hdig : isDigitChar c = true := by
    have hall : (natToStr n).all isDigitChar = true := by
      by_cases h0 : n = 0
      · subst h0; decide
      · have := parseDigits_natToStr n
        rw [parseDigits] at this
        by_cases hcond : natToStr n ≠ [] ∧ (natToStr n).all isDigitChar = true
        · exact hcond.2
        · rw [if_neg hcond] at this
          cases this
    exact List.all_eq_true.mp hall c hc
  simp only [isDigitChar, Bool.and_eq_true, decide_eq_true_eq] at hdig
  simp only [pyIsSpace, Bool.or_eq_false_iff, decide_eq_false_iff_not]
  omega


theorem parsePyInt_natToStr (n : Nat) : parsePyInt (natToStr n) = some (n : Int) := by
  have hstrip : pyStrip (natToStr n) = natToStr n :=
    pyStrip_eq_self_of_no_space (natToStr_no_space n)
  cases hnts : natToStr n with
  | nil =>
    exfalso
    have := parseDigits_natToStr n
    rw [hnts, parseDigits] at this
    simp at this
  | cons c ds =>
    have hcdig : isDigitChar c = true := by
      have := parseDigits_natToStr n
      rw [hnts, parseDigits] at this
      by_cases hcond : (c :: ds) ≠ [] ∧ (c :: ds).all isDigitChar = true
      · exact (List.all_eq_true.mp hcond.2 c (List.mem_cons_self c ds))
      · rw [if_neg hcond] at this; cases this
    simp only [isDigitChar, Bool.and_eq_true, decide_eq_true_eq] at hcdig
    have hplus : c ≠ '+' := by
      intro he
      rw [charEq_iff_toNat] at he
      have : ('+').toNat = 43 := by decide
      omega
    have hminus : c ≠ '-' := by
      intro he
      rw [charEq_iff_toNat] at he
      have : ('-').toNat = 45 := by decide
      omega
    rw [hnts] at hstrip
    have hstep : parsePyInt (c :: ds) =
        if c = '+' then (parseDigits ds).map Int.ofNat
        else if c = '-' then (parseDigits ds).map fun m => -(m : Int)
        else (parseDigits (c :: ds)).map Int.ofNat := by
      rw [parsePyInt.eq_def, hstrip]
    rw [hstep, if_neg hplus, if_neg hminus, ← hnts, parseDigits_natToStr n]
    rfl


theorem parseRows_append_singleton (hdr : List (List Char)) :
    ∀ (l : List (List (List Char))) (x : List (List Char))
      (ys : List HistoryEntry) (y : HistoryEntry),
      parseRows hdr l = some ys → parseHistoryRow hdr x = some y →
      parseRows hdr (l ++ [x]) = some (ys ++ [y]) := by
  intro l
  induction l with
  | nil =>
    intro x ys y hl hx
    simp only [parseRows, Option.some.injEq] at hl
    subst hl
    simp [parseRows, hx]
  | cons a as ih =>
    intro x ys y hl hx
    rw [parseRows] at hl
    cases hfa : parseHistoryRow hdr a with
    | none => rw [hfa] at hl; simp at hl
    | some v =>
      rw [hfa] at hl
      cases has : parseRows hdr as with
      | none => rw [has] at hl; simp at hl
      | some vs =>
        rw [has] at hl
        simp only [Option.some.injEq] at hl
        subst hl
        rw [List.cons_append, parseRows, hfa, ih x vs y has hx]
        rfl


theorem parseHistoryRow_fresh (now : List Char) (t c : Nat) :
    parseHistoryRow historyHeader [now, natToStr t, natToStr c] =
      some ⟨now, (t : Int), (c : Int)⟩ := by
  have h1 : lookupField historyHeader [now, natToStr t, natToStr c] (chars "time") =
      some now := rfl
  have h2 : lookupField historyHeader [now, natToStr t, natToStr c]
      (chars "number_of_questions") = some (natToStr t) := rfl
  have h3 : lookupField historyHeader [now, natToStr t, natToStr c]
      (chars "number_of_correct_answers") = some (natToStr c) := rfl
  rw [parseHistoryRow, h1, h2, h3]
  simp [parsePyInt_natToStr]


/-- C7: for every prior history state produced by the store (no file yet, or a
header followed by deserializable rows) and every appended (total, correct)
pair, `save_quiz_result` followed by `load_quiz_history` yields the old
entries unchanged followed by exactly one new entry carrying the appended
values and the append-time timestamp `now`; in particular the length grows by
exactly one and no prior entry is overwritten or truncated. -/
theorem history_append_then_load :
    ∀ (now : List Char) (total correct : Nat)
      (st : Option (List (List (List Char)))) (L : List HistoryEntry),
      (st = none ∨ ∃ body, st = some (historyHeader :: body)) →
      load_quiz_history st = some L →
      load_quiz_history (some (save_quiz_result now total correct st)) =
        some (L ++ [⟨now, (total : Int), (correct : Int)⟩]) := by
  intro now total correct st L hwf hload
  rcases hwf with h | ⟨body, h⟩
  · subst h
    simp only [load_quiz_history, Option.some.injEq] at hload
    subst hload
    have hsave : save_quiz_result now total correct none =
        historyHeader :: [[now, natToStr total, natToStr correct]] := rfl
    rw [hsave]
    simp only [load_quiz_history, List.nil_append]
    rw [parseRows, parseHistoryRow_fresh]
    rfl
  · subst h
    simp only [load_quiz_history] at hload
    have hsave : save_quiz_result now total correct (some (historyHeader :: body)) =
        historyHeader :: (body ++ [[now, natToStr total, natToStr correct]]) := by
      simp [save_quiz_result]
    rw [hsave]
    simp only [load_quiz_history]
    exact parseRows_append_singleton historyHeader body _ L _ hload
      (parseHistoryRow_fresh now total correct)

theorem history_append_then_load_witness :
    load_quiz_history (some (save_quiz_result (chars "2024-01-15T10:30:00") 3 2 none)) =
      some ([] ++ [⟨chars "2024-01-15T10:30:00", (3 : Int), (2 : Int)⟩]) :=
  history_append_then_load (chars "2024-01-15T10:30:00") 3 2 none []
    (Or.inl rfl) rfl


/-- C1 counterexample: under the claim's semantics both term sets of
`match("a", "- a")` are the non-empty set containing the single term `a`, so
the claim demands *Correct*; the code answers *Incorrect*, because the
correct term is not pre-normalized as a whole, so removing the hyphen of the
segment `- a` exposes a leading space that is never trimmed. -/
theorem matcher_prenormalization_counterexample :
    matchAnswer (chars "a") (chars "- a") = Verdict.incorrect ∧
    specTermSet (chars "a") = specTermSet (chars "- a") ∧
    specTermSet (chars "a") ≠ ∅ :=
  ⟨by decide, by decide, by decide⟩


/-- C1 (amended): the matcher compares the *user* term set, built exactly as
the claim says (whole string trimmed/lowercased/de-hyphenated, then split on
commas, each segment normalized again, empties discarded — `specTermSet`),
against the *correct* term set built by splitting the raw correct term on
commas and normalizing each segment once (`termFinset`); it returns Correct
on set equality, Partial (`subsetAnswer`) when the user set is non-empty and
a subset, and Incorrect otherwise.  The claim's five example verdicts all
hold: match("a","a,b") is Partial, match("a,c","a,b") is Incorrect,
match("", t) is Incorrect for any `t` with non-empty correct-term set,
match("CPR","cpr") and match("brady-cardia","bradycardia") are Correct. -/
theorem matcher_amended_rule :
    ∀ u c t : List Char, termFinset t ≠ ∅ →
      (matchAnswer u c =
        if specTermSet u = termFinset c then Verdict.correct
        else if specTermSet u ≠ ∅ ∧ specTermSet u ⊆ termFinset c then
          Verdict.subsetAnswer
        else Verdict.incorrect) ∧
      matchAnswer (chars "a") (chars "a,b") = Verdict.subsetAnswer ∧
      matchAnswer (chars "a,c") (chars "a,b") = Verdict.incorrect ∧
      matchAnswer [] t = Verdict.incorrect ∧
      matchAnswer (chars "CPR") (chars "cpr") = Verdict.correct ∧
      matchAnswer (chars "brady-cardia") (chars "bradycardia") = Verdict.correct := by
  intro u c t ht
  refine ⟨rfl, by decide, by decide, ?_, by decide, by decide⟩
  have huser : termFinset (pyNorm []) = ∅ := by decide
  simp only [matchAnswer, huser]
  rw [if_neg fun he => ht he.symm, if_neg (by simp)]

theorem matcher_amended_rule_witness :
    (matchAnswer (chars "a") (chars "a,b") =
      if specTermSet (chars "a") = termFinset (chars "a,b") then Verdict.correct
      else if specTermSet (chars "a") ≠ ∅ ∧
          specTermSet (chars "a") ⊆ termFinset (chars "a,b") then
        Verdict.subsetAnswer
      else Verdict.incorrect) ∧
    matchAnswer (chars "a") (chars "a,b") = Verdict.subsetAnswer ∧
    matchAnswer (chars "a,c") (chars "a,b") = Verdict.incorrect ∧
    matchAnswer [] (chars "x") = Verdict.incorrect ∧
    matchAnswer (chars "CPR") (chars "cpr") = Verdict.correct ∧
    matchAnswer (chars "brady-cardia") (chars "bradycardia") = Verdict.correct :=
  matcher_amended_rule (chars "a") (chars "a,b") (chars "x") (by decide)


theorem splitOnChar_ne_nil (sep : Char) : ∀ l : List Char, splitOnChar sep l ≠ [] := by
  intro l
  induction l with
  | nil => simp [splitOnChar]
  | cons c rest ih =>
    rw [splitOnChar]
    by_cases hc : c = sep
    · simp [hc]
    · rw [if_neg hc]
      cases hsr : splitOnChar sep rest with
      | nil => exact absurd hsr ih
      | cons s0 ss => simp


theorem mem_splitOnChar_chars {sep : Char} :
    ∀ {l s : List Char}, s ∈ splitOnChar sep l → ∀ ch ∈ s, ch ∈ l ∧ ch ≠ sep := by
  intro l
  induction l with
  | nil =>
    intro s hs ch hch
    simp [splitOnChar] at hs
    subst hs
    simp at hch
  | cons c rest ih =>
    intro s hs ch hch
    rw [splitOnChar] at hs
    by_cases hc : c = sep
    · rw [if_pos hc] at hs
      rcases List.mem_cons.mp hs with h | h
      · subst h; simp at hch
      · have := ih h ch hch
        exact ⟨List.mem_cons_of_mem _ this.1, this.2⟩
    · rw [if_neg hc] at hs
      cases hsr : splitOnChar sep rest with
      | nil => exact absurd hsr (splitOnChar_ne_nil sep rest)
      | cons s0 ss =>
        rw [hsr] at hs
        rcases List.mem_cons.mp hs with h | h
        · subst h
          rcases List.mem_cons.mp hch with h2 | h2
          · subst h2; exact ⟨List.mem_cons_self _ _, hc⟩
          · have hs0 : s0 ∈ splitOnChar sep rest := by rw [hsr]; exact List.mem_cons_self _ _
            have := ih hs0 ch h2
            exact ⟨List.mem_cons_of_mem _ this.1, this.2⟩
        · have hmem : s ∈ splitOnChar sep rest := by rw [hsr]; exact List.mem_cons_of_mem _ h
          have := ih hmem ch hch
          exact ⟨List.mem_cons_of_mem _ this.1, this.2⟩


theorem char_mem_splitOnChar {sep : Char} :
    ∀ {l : List Char} {ch : Char}, ch ∈ l →
      ch = sep ∨ ∃ s ∈ splitOnChar sep l, ch ∈ s := by
  intro l
  induction l with
  | nil => intro ch hch; simp at hch
  | cons c rest ih =>
    intro ch hch
    rw [splitOnChar]
    by_cases hc : c = sep
    · rw [if_pos hc]
      rcases List.mem_cons.mp hch with h | h
      · subst h; exact Or.inl hc
      · rcases ih h with h2 | ⟨s, hs, hchs⟩
        · exact Or.inl h2
        · exact Or.inr ⟨s, List.mem_cons_of_mem _ hs, hchs⟩
    · rw [if_neg hc]
      cases hsr : splitOnChar sep rest with
      | nil => exact absurd hsr (splitOnChar_ne_nil sep rest)
      | cons s0 ss =>
        rcases List.mem_cons.mp hch with h | h
        · subst h
          exact Or.inr ⟨ch :: s0, List.mem_cons_self _ _, List.mem_cons_self _ _⟩
        · rcases ih h with h2 | ⟨s, hs, hchs⟩
          · exact Or.inl h2
          · rw [hsr] at hs
            rcases List.mem_cons.mp hs with h3 | h3
            · subst h3
              exact Or.inr ⟨c :: s, List.mem_cons_self _ _, List.mem_cons_of_mem _ hchs⟩
            · exact Or.inr ⟨s, List.mem_cons_of_mem _ h3, hchs⟩


theorem mem_of_mem_dropWhile {p : Char → Bool} :
    ∀ {l : List Char} {ch : Char}, ch ∈ l.dropWhile p → ch ∈ l := by
  intro l
  induction l with
  | nil => intro ch h; simp [List.dropWhile] at h
  | cons x xs ih =>
    intro ch h
    rw [List.dropWhile_cons] at h
    by_cases hx : p x = true
    · rw [if_pos hx] at h
      exact List.mem_cons_of_mem _ (ih h)
    · rw [if_neg hx] at h
      exact h


theorem mem_of_mem_pyStrip {l : List Char} {ch : Char} (h : ch ∈ pyStrip l) :
    ch ∈ l := by
  rw [pyStrip, List.mem_reverse] at h
  have h2 := mem_of_mem_dropWhile h
  rw [List.mem_reverse] at h2
  exact mem_of_mem_dropWhile h2


theorem mem_pyStrip_or_space {l : List Char} {ch : Char} (h : ch ∈ l) :
    ch ∈ pyStrip l ∨ pyIsSpace ch = true := by
  by_cases hsp : pyIsSpace ch = true
  · exact Or.inr hsp
  · refine Or.inl ?_
    have h1 : ch ∈ l.dropWhile pyIsSpace := by
      have := (List.takeWhile_append_dropWhile (p := pyIsSpace) (l := l))
      rw [← this] at h
      rcases List.mem_append.mp h with h2 | h2
      · exact absurd (List.mem_takeWhile_imp h2) hsp
      · exact h2
    have h2 : ch ∈ (l.dropWhile pyIsSpace).reverse := List.mem_reverse.mpr h1
    have h3 : ch ∈ (l.dropWhile pyIsSpace).reverse.dropWhile pyIsSpace := by
      have := (List.takeWhile_append_dropWhile (p := pyIsSpace)
        (l := (l.dropWhile pyIsSpace).reverse))
      rw [← this] at h2
      rcases List.mem_append.mp h2 with h4 | h4
      · exact absurd (List.mem_takeWhile_imp h4) hsp
      · exact h4
    rw [pyStrip, List.mem_reverse]
    exact h3


theorem pyNorm_nil_chars {t : List Char} (h : pyNorm t = []) :
    ∀ ch ∈ t, pyIsSpace ch = true ∨ ch = '-' := by
  intro ch hch
  have hall : ∀ x ∈ pyLower (pyStrip t), x = '-' := by
    intro x hx
    have := List.filter_eq_nil_iff.mp h x hx
    simpa using this
  rcases mem_pyStrip_or_space hch with h2 | h2
  · refine Or.inr ?_
    have hx : pyLowerChar ch ∈ pyLower (pyStrip t) := List.mem_map_of_mem _ h2
    exact pyLowerChar_eq_hyphen (hall _ hx)
  · exact Or.inl h2


theorem pyNorm_of_all_space {s : List Char} (h : ∀ ch ∈ s, pyIsSpace ch = true) :
    pyNorm s = [] := by
  have h1 : s.dropWhile pyIsSpace = [] := List.dropWhile_eq_nil_iff.mpr h
  have h2 : pyStrip s = [] := by
    rw [pyStrip, h1]
    rfl
  rw [pyNorm, h2]
  rfl


theorem pyNorm_chars_space_or_comma {u : List Char}
    (h : ∀ s ∈ splitOnChar ',' u, pyNorm s = []) :
    ∀ ch ∈ pyNorm u, pyIsSpace ch = true ∨ ch = ',' := by
  intro ch hch
  rw [pyNorm] at hch
  have hch2 := List.mem_filter.mp hch
  have hne : ch ≠ '-' := by simpa using hch2.2
  obtain ⟨d, hd, hdch⟩ := List.mem_map.mp hch2.1
  have hdu : d ∈ u := mem_of_mem_pyStrip hd
  rcases @char_mem_splitOnChar ',' u d hdu with h2 | ⟨s, hs, hds⟩
  · subst h2
    have : pyLowerChar ',' = ',' := by decide
    rw [this] at hdch
    exact Or.inr hdch.symm
  · rcases pyNorm_nil_chars (h s hs) d hds with h3 | h3
    · rw [pyLowerChar_of_space h3] at hdch
      subst hdch
      exact Or.inl h3
    · subst h3
      have : pyLowerChar '-' = '-' := by decide
      rw [this] at hdch
      exact absurd hdch.symm hne


theorem termFinset_empty_of_all_nil {u : List Char}
    (h : ∀ s ∈ splitOnChar ',' u, pyNorm s = []) : termFinset u = ∅ := by
  rw [termFinset]
  have hfil : ((splitOnChar ',' u).map pyNorm).filter (fun t => t != []) = [] := by
    apply List.filter_eq_nil_iff.mpr
    intro t ht
    obtain ⟨s, hs, hst⟩ := List.mem_map.mp ht
    rw [← hst, h s hs]
    simp
  rw [hfil]
  rfl


theorem userTermSet_empty_of_all_nil {u : List Char}
    (h : ∀ s ∈ splitOnChar ',' u, pyNorm s = []) : termFinset (pyNorm u) = ∅ := by
  apply termFinset_empty_of_all_nil
  intro s hs
  apply pyNorm_of_all_space
  intro ch hch
  have hmem := mem_splitOnChar_chars hs ch hch
  rcases pyNorm_chars_space_or_comma h ch hmem.1 with h2 | h2
  · exact h2
  · exact absurd h2 hmem.2


/-- C10: whenever every comma-separated segment of both the user answer and
the correct term normalizes (trim, lowercase, hyphen removal) to the empty
string — e.g. match("-", ",") or match("  ", "-,-") — both normalized term
sets are the empty set, they are equal, and the matcher returns Correct;
consequently an empty user input yields Incorrect exactly when the correct
term's normalized set is non-empty. -/
theorem empty_term_sets_match_correct :
    ∀ u c t : List Char,
      (∀ s ∈ splitOnChar ',' u, pyNorm s = []) →
      (∀ s ∈ splitOnChar ',' c, pyNorm s = []) →
      matchAnswer u c = Verdict.correct ∧
      matchAnswer (chars "-") (chars ",") = Verdict.correct ∧
      matchAnswer (chars "  ") (chars "-,-") = Verdict.correct ∧
      (matchAnswer [] t = Verdict.incorrect ↔ termFinset t ≠ ∅) := by
  intro u c t hu hc
  refine ⟨?_, by decide, by decide, ?_⟩
  · have h1 := userTermSet_empty_of_all_nil hu
    have h2 := termFinset_empty_of_all_nil hc
    simp [matchAnswer, h1, h2]
  · have huser : termFinset (pyNorm []) = ∅ := by decide
    by_cases hct : termFinset t = ∅
    · have hcorrect : matchAnswer [] t = Verdict.correct := by
        simp [matchAnswer, huser, hct]
      rw [hcorrect]
      constructor
      · intro h; cases h
      · intro h; exact absurd hct h
    · have hincorrect : matchAnswer [] t = Verdict.incorrect := by
        simp only [matchAnswer, huser]
        rw [if_neg fun he => hct he.symm, if_neg (by simp)]
      rw [hincorrect]
      simp [hct]

theorem empty_term_sets_match_correct_witness :
    matchAnswer (chars "-") (chars ",") = Verdict.correct ∧
    matchAnswer (chars "-") (chars ",") = Verdict.correct ∧
    matchAnswer (chars "  ") (chars "-,-") = Verdict.correct ∧
    (matchAnswer [] (chars "x") = Verdict.incorrect ↔ termFinset (chars "x") ≠ ∅) :=
  empty_term_sets_match_correct (chars "-") (chars ",") (chars "x")
    (by decide) (by decide)

